import Mathlib

/-!
# Verification of the dbt-docs-modern lineage graph builder

A shallow embedding of the graph-construction logic of
`src/LineageGraph.svelte` (function `buildGraph` together with the filter
state it reads, the recursive `getUpstream`/`getDownstream` focus
traversals, and the `dragstarted`/`dragged`/`dragended` handlers), plus a
JavaScript-value level model of the node-normalisation loop used to reason
about missing fields and malformed manifest documents.

Conventions of the embedding:
* A manifest is the `Object.entries` view of `manifest.nodes`: an
  association list from unique id to raw node record.  Optional JSON
  fields become `Option` fields; the JavaScript `x || d` fallback on
  strings is `jsOrStr` (the empty string is falsy).
* The mutable filter component state (`showModels`, ..., `selectedSchemas`,
  `selectedDatabases`) is passed explicitly as a `FilterSpec`.
* The recursive DFS traversals terminate in JavaScript via their
  `visited` set; here they take an explicit fuel argument, with
  `links.length + 2` proved sufficient (see `traversal_termination`).
  Within one traversal the JavaScript `visited` and `relevantNodes` sets
  receive exactly the same elements, so the traversal returns its visited
  list and `relevantNodes` is the union of the two traversal results.
-/

/-- An edge of the lineage graph: `target` depends on `source`
(`links.push({source: depId, target: id})`). -/
structure Link where
  source : String
  target : String
deriving DecidableEq, Repr

/-- A raw manifest node record, restricted to the fields read by
`buildGraph`.  `Option` marks fields that may be absent in the JSON. -/
structure RawNode where
  name : Option String
  resource_type : Option String
  /-- `node.config?.materialized` collapsed: `none` when `config` or
  `materialized` is absent. -/
  config_materialized : Option String
  schema : Option String
  database : Option String
  tags : Option (List String)
  description : Option String
  /-- `node.depends_on?.nodes` collapsed likewise. -/
  depends_on_nodes : Option (List String)
deriving DecidableEq, Repr

/-- The manifest as consumed by `buildGraph`: `Object.entries(manifest.nodes)`. -/
structure Manifest where
  nodes : List (String × RawNode)
deriving DecidableEq, Repr

/-- A normalised node produced by the first loop of `buildGraph`. -/
structure NodeData where
  id : String
  name : Option String
  type : Option String
  materialization : String
  schema : Option String
  database : Option String
  tags : List String
  description : String
deriving DecidableEq, Repr

/-- JavaScript `v || d` on an optional string: `undefined`/`null` and the
empty string are falsy. -/
def jsOrStr (v : Option String) (d : String) : String :=
  match v with
  | none => d
  | some s => if s = "" then d else s

/-- One iteration of the node-building loop of `buildGraph`. -/
def normalizeNode (id : String) (node : RawNode) : NodeData :=
  { id := id
    name := node.name
    type := node.resource_type
    materialization := jsOrStr node.config_materialized "view"
    schema := node.schema
    database := node.database
    tags := node.tags.getD []
    description := jsOrStr node.description "" }

/-- The `nodes` array built by the first loop of `buildGraph`. -/
def buildNodes (m : Manifest) : List NodeData :=
  m.nodes.map (fun p => normalizeNode p.1 p.2)

/-- The key set of `nodeMap` (populated with every entry id before the
edge loop runs). -/
def nodeIds (m : Manifest) : List String :=
  m.nodes.map Prod.fst

/-- The `links` array: for each entry and each declared dependency id,
an edge is pushed iff `nodeMap.has(depId)`. -/
def buildLinks (m : Manifest) : List Link :=
  m.nodes.flatMap (fun p =>
    ((p.2.depends_on_nodes.getD []).filter (fun depId => (nodeIds m).contains depId)).map
      (fun depId => { source := depId, target := p.1 }))

/-- The filter component state read by `buildGraph`. -/
structure FilterSpec where
  showModels : Bool
  showSources : Bool
  showSeeds : Bool
  showTests : Bool
  showSnapshots : Bool
  selectedSchemas : List String
  selectedDatabases : List String
deriving DecidableEq, Repr

/-- The initial values of the filter variables (`showTests` is the only
toggle that starts off). -/
def defaultFilter : FilterSpec :=
  { showModels := true
    showSources := true
    showSeeds := true
    showTests := false
    showSnapshots := true
    selectedSchemas := []
    selectedDatabases := [] }

/-- `selectedSchemas.includes(n.schema)`: an absent (`undefined`) schema is
never a member of a list of strings. -/
def optIncludes (l : List String) (v : Option String) : Bool :=
  match v with
  | some s => l.contains s
  | none => false

/-- The schema/database tail of the node filter predicate
(the last two early-return checks of `nodes.filter`):
`selectedSchemas.length > 0 && !selectedSchemas.includes(n.schema)` and the
analogous database check. -/
def passesSchemaDb (f : FilterSpec) (n : NodeData) : Bool :=
  if f.selectedSchemas ≠ [] ∧ optIncludes f.selectedSchemas n.schema = false then false
  else if f.selectedDatabases ≠ [] ∧ optIncludes f.selectedDatabases n.database = false then false
  else true

/-- The node filter predicate of `buildGraph` (`nodes.filter(n => ...)`),
with the early returns rendered as nested conditionals. -/
def passesFilter (f : FilterSpec) (n : NodeData) : Bool :=
  if n.type = some "model" ∧ f.showModels = false then false
  else if n.type = some "source" ∧ f.showSources = false then false
  else if n.type = some "seed" ∧ f.showSeeds = false then false
  else if n.type = some "test" ∧ f.showTests = false then false
  else if n.type = some "snapshot" ∧ f.showSnapshots = false then false
  else if f.selectedSchemas ≠ [] ∧ optIncludes f.selectedSchemas n.schema = false then false
  else if f.selectedDatabases ≠ [] ∧ optIncludes f.selectedDatabases n.database = false then false
  else true

/-- The recursive `getUpstream` closure of `buildGraph`, with an explicit
fuel argument standing in for the unbounded JavaScript recursion
(`visited` doubles as the returned set; see the header comment). -/
def getUpstreamAux (links : List Link) : Nat → List String → String → List String
  | 0, visited, _ => visited
  | fuel + 1, visited, nodeId =>
    if visited.contains nodeId then visited
    else
      links.foldl
        (fun vis l =>
          if l.target = nodeId then getUpstreamAux links fuel vis l.source else vis)
        (nodeId :: visited)

/-- The recursive `getDownstream` closure, fuel-indexed likewise. -/
def getDownstreamAux (links : List Link) : Nat → List String → String → List String
  | 0, visited, _ => visited
  | fuel + 1, visited, nodeId =>
    if visited.contains nodeId then visited
    else
      links.foldl
        (fun vis l =>
          if l.source = nodeId then getDownstreamAux links fuel vis l.target else vis)
        (nodeId :: visited)

/-- `getUpstream(focusModel)` run on a cleared `visited` set; the fuel
`links.length + 2` is proved sufficient in `traversal_termination`. -/
def getUpstream (links : List Link) (focus : String) : List String :=
  getUpstreamAux links (links.length + 2) [] focus

/-- `getDownstream(focusModel)` run on a cleared `visited` set. -/
def getDownstream (links : List Link) (focus : String) : List String :=
  getDownstreamAux links (links.length + 2) [] focus

/-- The `relevantNodes` set after both traversals: the upstream pass and
the downstream pass add exactly their visited nodes to it. -/
def relevantNodes (links : List Link) (focus : String) : List String :=
  getUpstream links focus ++ getDownstream links focus

/-- The value returned by `buildGraph`. -/
structure Graph where
  nodes : List NodeData
  links : List Link
deriving DecidableEq, Repr

/-- `buildGraph(manifest, focusModel)`: node extraction, edge extraction,
type/schema/database filtering, focus reduction (guarded by JavaScript
truthiness of `focusModel`, so `null` and the empty string skip it), and
the final edge-survival filter. -/
def buildGraph (m : Manifest) (f : FilterSpec) (focusModel : Option String) : Graph :=
  let nodes := buildNodes m
  let links := buildLinks m
  let filtered1 := nodes.filter (fun n => passesFilter f n)
  let filtered2 :=
    match focusModel with
    | some focus =>
      if focus = "" then filtered1
      else filtered1.filter (fun n => (relevantNodes links focus).contains n.id)
    | none => filtered1
  let visibleIds := filtered2.map (fun n => n.id)
  { nodes := filtered2
    links := links.filter (fun l => visibleIds.contains l.source && visibleIds.contains l.target) }

/-- Whether the focus-mode reduction retains a node id: trivially true
when no focus node is given (or the focus id is falsy), otherwise
membership of `relevantNodes`. -/
def inFocusB (links : List Link) (focusModel : Option String) (id : String) : Bool :=
  match focusModel with
  | none => true
  | some focus => focus == "" || (relevantNodes links focus).contains id

/-- Directed reachability over an edge list: `Reaches links x y` holds when
there is a (possibly empty) forward path from `x` to `y`. -/
inductive Reaches (links : List Link) : String → String → Prop
  | refl (x : String) : Reaches links x x
  | head {x y z : String} : Link.mk x y ∈ links → Reaches links y z → Reaches links x z

/-- Reverse a single edge. -/
def flipLink (l : Link) : Link :=
  { source := l.target, target := l.source }

/-- The number of candidate traversal arguments not yet visited; the
measure that bounds the depth of the `getUpstream`/`getDownstream`
recursion. -/
def newCount (univ vis : List String) : Nat :=
  (univ.filter (fun u => !vis.contains u)).length

/-!
## JavaScript-value level model of the node extraction loop

Used for the claims about malformed manifest documents and missing
optional fields: property access on `null`/`undefined` throws, every
other access yields a value or `undefined`, and `||` falls back on falsy
values.  This mirrors lines 33-51 of `LineageGraph.svelte` without any
well-typedness assumption on the document.
-/

/-- An untyped JavaScript value (floats are not needed: the manifest
fields consumed here are strings, arrays and objects). -/
inductive JsVal where
  | null
  | undefined
  | boolean (b : Bool)
  | number (n : Int)
  | string (s : String)
  | array (elems : List JsVal)
  | object (fields : List (String × JsVal))

/-- JavaScript truthiness. -/
def truthy : JsVal → Bool
  | .null => false
  | .undefined => false
  | .boolean b => b
  | .number n => n != 0
  | .string s => s != ""
  | .array _ => true
  | .object _ => true

/-- `v || d`. -/
def jsOr (v d : JsVal) : JsVal :=
  if truthy v then v else d

/-- Own-property lookup on an object field list, `undefined` when absent. -/
def jsLookup (fields : List (String × JsVal)) (key : String) : JsVal :=
  match fields.lookup key with
  | some v => v
  | none => JsVal.undefined

/-- Property access `v.key`: throws a `TypeError` on `null`/`undefined`,
yields `undefined` for absent fields and for primitives. -/
def getProp : JsVal → String → Except String JsVal
  | .null, key => .error ("TypeError: cannot read properties of null (reading " ++ key ++ ")")
  | .undefined, key => .error ("TypeError: cannot read properties of undefined (reading " ++ key ++ ")")
  | .object fields, key => .ok (jsLookup fields key)
  | _, _ => .ok .undefined

/-- Optional chaining `v?.key`: `undefined` instead of throwing. -/
def optChainProp (v : JsVal) (key : String) : JsVal :=
  match v with
  | .null => .undefined
  | .undefined => .undefined
  | .object fields => jsLookup fields key
  | _ => .undefined

/-- `Object.entries`, for the value shapes that can occur here. -/
def jsEntries : JsVal → List (String × JsVal)
  | .object fields => fields
  | .array elems => elems.enum.map (fun p => (toString p.1, p.2))
  | .string s => s.toList.enum.map (fun p => (toString p.1, JsVal.string (String.singleton p.2)))
  | _ => []

/-- `true` exactly on `Except.error`. -/
def exceptIsError {ε α : Type} : Except ε α → Bool
  | .error _ => true
  | .ok _ => false

/-- The `nodeData` record built per entry, before any typing assumption. -/
structure JsNodeData where
  id : String
  name : JsVal
  type : JsVal
  materialization : JsVal
  schema : JsVal
  database : JsVal
  tags : JsVal
  description : JsVal

/-- One iteration of the node loop at the JavaScript level, with the
field initialisers evaluated in source order: the first property access
on a `null`/`undefined` record throws. -/
def parseNodeEntry (id : String) (node : JsVal) : Except String JsNodeData := do
  let name ← getProp node "name"
  let rtype ← getProp node "resource_type"
  let config ← getProp node "config"
  let schema ← getProp node "schema"
  let database ← getProp node "database"
  let tags ← getProp node "tags"
  let description ← getProp node "description"
  pure
    { id := id
      name := name
      type := rtype
      materialization := jsOr (optChainProp config "materialized") (JsVal.string "view")
      schema := schema
      database := database
      tags := jsOr tags (JsVal.array [])
      description := jsOr description (JsVal.string "") }

/-- The whole node-extraction loop over `Object.entries(manifest.nodes || {})`
at the JavaScript level: the first thrown error aborts it. -/
def buildNodesJs (manifest : JsVal) : Except String (List JsNodeData) := do
  let nodesRaw ← getProp manifest "nodes"
  (jsEntries (jsOr nodesRaw (JsVal.object []))).mapM (fun p => parseNodeEntry p.1 p.2)

/-!
## Drag interaction model

The `dragstarted`/`dragged`/`dragended` handlers of `renderGraph` act on
the d3 simulation node: a node with non-null `fx`/`fy` is excluded from
simulation movement.  Coordinates are integers here; the handlers never
compute with them, so the number representation is irrelevant to the
pinning behaviour.  (`simulation.alphaTarget` only reheats the layout and
is not modelled.)
-/

/-- A d3 simulation node: current position and optional fixed position. -/
structure SimNode where
  x : Int
  y : Int
  fx : Option Int
  fy : Option Int
deriving DecidableEq, Repr

/-- `dragstarted`: fix the node at its current position. -/
def dragstarted (d : SimNode) : SimNode :=
  { d with fx := some d.x, fy := some d.y }

/-- `dragged`: move the fixed position to the pointer. -/
def dragged (eventX eventY : Int) (d : SimNode) : SimNode :=
  { d with fx := some eventX, fy := some eventY }

/-- `dragended`: clear the fixed position. -/
def dragended (d : SimNode) : SimNode :=
  { d with fx := none, fy := none }

/-- A node is pinned (excluded from simulation movement) when it has a
fixed coordinate. -/
def isPinned (d : SimNode) : Bool :=
  d.fx.isSome || d.fy.isSome

/-!
## Concrete fixtures

Small manifests used to instantiate the universally quantified theorems
below on concrete inputs. -/

/-- A raw model node with the given declared dependencies and no other
metadata. -/
def plainModel (nm : String) (deps : List String) : RawNode :=
  { name := some nm
    resource_type := some "model"
    config_materialized := none
    schema := none
    database := none
    tags := none
    description := none
    depends_on_nodes := some deps }

/-- The three-model chain `A → B → C` of the spec scenarios. -/
def mABC : Manifest :=
  ⟨[("A", plainModel "a" []), ("B", plainModel "b" ["A"]), ("C", plainModel "c" ["B"])]⟩

/-- One model plus one test depending on it. -/
def mModelTest : Manifest :=
  ⟨[("M", plainModel "m" []),
    ("T", { plainModel "t" ["M"] with resource_type := some "test" })]⟩

/-- A node whose resource type is none of the five filterable kinds. -/
def exoticNode : NodeData :=
  normalizeNode "X"
    { plainModel "x" [] with resource_type := some "exposure", schema := some "smain" }

/-- A two-edge cycle, exercising the traversal cycle guard. -/
def cyclicLinks : List Link :=
  [{ source := "a", target := "b" }, { source := "b", target := "a" }]

/-!
## Membership characterisations of the builder
-/

/-- An edge is produced exactly for a manifest entry and a declared
dependency id that is present in the node map. -/
theorem mem_buildLinks (m : Manifest) (l : Link) :
    l ∈ buildLinks m ↔
      ∃ p ∈ m.nodes, l.target = p.1 ∧ l.source ∈ p.2.depends_on_nodes.getD [] ∧
        l.source ∈ nodeIds m := by
  unfold buildLinks
  rw [List.mem_flatMap]
  constructor
  · rintro ⟨p, hp, hl⟩
    rw [List.mem_map] at hl
    obtain ⟨dep, hdep, rfl⟩ := hl
    rw [List.mem_filter] at hdep
    exact ⟨p, hp, rfl, hdep.1, by simpa using hdep.2⟩
  · rintro ⟨p, hp, ht, hs, hmem⟩
    refine ⟨p, hp, ?_⟩
    rw [List.mem_map]
    refine ⟨l.source, ?_, ?_⟩
    · rw [List.mem_filter]
      exact ⟨hs, by simpa using hmem⟩
    · obtain ⟨s, t⟩ := l
      simp only at ht
      rw [ht]

/-- Both endpoints of every produced edge are ids of the node map. -/
theorem buildLinks_endpoints_mem (m : Manifest) (l : Link) (hl : l ∈ buildLinks m) :
    l.source ∈ nodeIds m ∧ l.target ∈ nodeIds m := by
  obtain ⟨p, hp, ht, _, hs⟩ := (mem_buildLinks m l).mp hl
  refine ⟨hs, ?_⟩
  rw [ht]
  exact List.mem_map.mpr ⟨p, hp, rfl⟩

/-- A node is visible iff it is parsed, passes the type/schema/database
filter, and survives the focus reduction. -/
theorem mem_buildGraph_nodes (m : Manifest) (f : FilterSpec) (focusModel : Option String)
    (n : NodeData) :
    n ∈ (buildGraph m f focusModel).nodes ↔
      n ∈ buildNodes m ∧ passesFilter f n = true ∧
        inFocusB (buildLinks m) focusModel n.id = true := by
  cases focusModel with
  | none => simp [buildGraph, inFocusB, List.mem_filter]
  | some focus =>
    by_cases h : focus = ""
    · subst h
      simp [buildGraph, inFocusB, List.mem_filter]
    · simp [buildGraph, inFocusB, List.mem_filter, h]
      tauto

/-- An edge is visible iff it is produced and both endpoints are visible
node ids. -/
theorem mem_buildGraph_links (m : Manifest) (f : FilterSpec) (focusModel : Option String)
    (l : Link) :
    l ∈ (buildGraph m f focusModel).links ↔
      l ∈ buildLinks m ∧
        l.source ∈ (buildGraph m f focusModel).nodes.map NodeData.id ∧
        l.target ∈ (buildGraph m f focusModel).nodes.map NodeData.id := by
  simp [buildGraph, List.mem_filter]

/-!
## C3: edge survival and subgraph property
-/

/-- C3: for every manifest and filter specification, a produced edge is in
the visible edge set iff both its endpoints are ids of the final visible
node set, and the visible graph is a subgraph of the full parsed graph. -/
theorem edge_survival_iff (m : Manifest) (f : FilterSpec) (focusModel : Option String) :
    (∀ l ∈ buildLinks m,
        (l ∈ (buildGraph m f focusModel).links ↔
          l.source ∈ (buildGraph m f focusModel).nodes.map NodeData.id ∧
          l.target ∈ (buildGraph m f focusModel).nodes.map NodeData.id)) ∧
    (∀ l ∈ (buildGraph m f focusModel).links, l ∈ buildLinks m) ∧
    (∀ n ∈ (buildGraph m f focusModel).nodes, n ∈ buildNodes m) := by
  refine ⟨?_, ?_, ?_⟩
  · intro l hl
    rw [mem_buildGraph_links]
    tauto
  · intro l hl
    exact ((mem_buildGraph_links m f focusModel l).mp hl).1
  · intro n hn
    exact ((mem_buildGraph_nodes m f focusModel n).mp hn).1

/-- C3 witness: the edge survival rule instantiated on the `A → B → C`
manifest with the default filters. -/
theorem edge_survival_iff_witness :
    (Link.mk "A" "B" ∈ (buildGraph mABC defaultFilter none).links ↔
      "A" ∈ (buildGraph mABC defaultFilter none).nodes.map NodeData.id ∧
      "B" ∈ (buildGraph mABC defaultFilter none).nodes.map NodeData.id) ∧
    Link.mk "A" "B" ∈ buildLinks mABC := by
  refine ⟨(edge_survival_iff mABC defaultFilter none).1 (Link.mk "A" "B") ?_, ?_⟩ <;> decide

/-!
## C4: round-trip edge count
-/

/-- C4: when every declared dependency id exists in the node map, the
built edge list has exactly one edge per declared dependency entry. -/
theorem declared_edges_count (m : Manifest)
    (h : ∀ p ∈ m.nodes, ∀ dep ∈ p.2.depends_on_nodes.getD [], dep ∈ nodeIds m) :
    (buildLinks m).length =
      (m.nodes.map (fun p => (p.2.depends_on_nodes.getD []).length)).sum := by
  unfold buildLinks
  rw [List.length_flatMap]
  congr 1
  refine List.map_congr_left ?_
  intro p hp
  simp only [Function.comp_apply, List.length_map]
  congr 1
  refine List.filter_eq_self.mpr ?_
  intro dep hdep
  simpa using h p hp dep hdep

/-- C4 witness: the chain manifest declares two dependencies, both
resolvable, and yields exactly two edges. -/
theorem declared_edges_count_witness :
    (buildLinks mABC).length = (mABC.nodes.map (fun p => (p.2.depends_on_nodes.getD []).length)).sum ∧
    (buildLinks mABC).length = 2 :=
  ⟨declared_edges_count mABC (by decide), by decide⟩

/-!
## C5: dangling references
-/

/-- C5: a dependency id absent from the node map produces no edge, the
declaring node still appears in the parsed node set, and a node none of
whose resolvable dependencies exist and which nobody references is
incident to no edge at all. -/
theorem dangling_reference_dropped (m : Manifest) (z : String) (hz : z ∉ nodeIds m) :
    (∀ l ∈ buildLinks m, l.source ≠ z ∧ l.target ≠ z) ∧
    (∀ p ∈ m.nodes, ∃ n ∈ buildNodes m, n.id = p.1) ∧
    (∀ id : String,
      (∀ q ∈ m.nodes, q.1 = id → ∀ dep ∈ q.2.depends_on_nodes.getD [], dep ∉ nodeIds m) →
      (∀ q ∈ m.nodes, id ∉ q.2.depends_on_nodes.getD []) →
      ∀ l ∈ buildLinks m, l.source ≠ id ∧ l.target ≠ id) := by
  refine ⟨?_, ?_, ?_⟩
  · intro l hl
    obtain ⟨hs, ht⟩ := buildLinks_endpoints_mem m l hl
    constructor
    · rintro rfl
      exact hz hs
    · rintro rfl
      exact hz ht
  · intro p hp
    exact ⟨normalizeNode p.1 p.2, List.mem_map.mpr ⟨p, hp, rfl⟩, rfl⟩
  · intro id hnodeps hnoref l hl
    obtain ⟨p, hp, ht, hdep, hsrc⟩ := (mem_buildLinks m l).mp hl
    constructor
    · rintro rfl
      exact hnoref p hp hdep
    · rintro rfl
      exact hnodeps p hp ht.symm l.source hdep hsrc

/-- C5 witness: `D` declares a dependency on the absent `Z`; no edge is
produced and `D` still appears, isolated. -/
theorem dangling_reference_dropped_witness :
    (∀ l ∈ buildLinks ⟨[("D", plainModel "d" ["Z"])]⟩, l.source ≠ "Z" ∧ l.target ≠ "Z") ∧
    (∃ n ∈ buildNodes ⟨[("D", plainModel "d" ["Z"])]⟩, n.id = "D") ∧
    (∀ l ∈ buildLinks ⟨[("D", plainModel "d" ["Z"])]⟩, l.source ≠ "D" ∧ l.target ≠ "D") := by
  have h := dangling_reference_dropped ⟨[("D", plainModel "d" ["Z"])]⟩ "Z" (by decide)
  exact ⟨h.1, h.2.1 ("D", plainModel "d" ["Z"]) (by decide),
    h.2.2 "D" (by decide) (by decide)⟩

/-!
## C6: test visibility toggle
-/

/-- A test node never passes the filter while `showTests` is off. -/
theorem passesFilter_test_hidden (f : FilterSpec) (n : NodeData)
    (ht : n.type = some "test") (hs : f.showTests = false) :
    passesFilter f n = false := by
  simp [passesFilter, ht, hs]

/-- With `showTests` on, only the schema/database checks remain for a
test node. -/
theorem passesFilter_of_test_shown (f : FilterSpec) (n : NodeData)
    (ht : n.type = some "test") (hs : f.showTests = true) :
    passesFilter f n = passesSchemaDb f n := by
  unfold passesFilter passesSchemaDb
  rw [if_neg (by simp [ht]), if_neg (by simp [ht]), if_neg (by simp [ht]),
    if_neg (by simp [ht, hs]), if_neg (by simp [ht])]

/-- C6: the default filter hides tests; while `showTests` is off no test
node is visible, and turning it on makes every test node that passes the
schema/database checks and the focus reduction visible. -/
theorem tests_hidden_by_default (m : Manifest) :
    defaultFilter.showTests = false ∧
    (∀ (f : FilterSpec) (focusModel : Option String), f.showTests = false →
      ∀ n ∈ (buildGraph m f focusModel).nodes, n.type ≠ some "test") ∧
    (∀ (f : FilterSpec) (focusModel : Option String) (n : NodeData),
      f.showTests = true → n ∈ buildNodes m → n.type = some "test" →
      passesSchemaDb f n = true → inFocusB (buildLinks m) focusModel n.id = true →
      n ∈ (buildGraph m f focusModel).nodes) := by
  refine ⟨rfl, ?_, ?_⟩
  · intro f focusModel hf n hn ht
    have h := ((mem_buildGraph_nodes m f focusModel n).mp hn).2.1
    rw [passesFilter_test_hidden f n ht hf] at h
    exact Bool.noConfusion h
  · intro f focusModel n hf hn ht hsd hfoc
    rw [mem_buildGraph_nodes]
    refine ⟨hn, ?_, hfoc⟩
    rw [passesFilter_of_test_shown f n ht hf]
    exact hsd

/-- C6 witness: in the model-plus-test manifest, the model node visible
by default is not a test, and enabling `showTests` makes the test node
visible. -/
theorem tests_hidden_by_default_witness :
    (normalizeNode "M" (plainModel "m" [])).type ≠ some "test" ∧
    normalizeNode "T" { plainModel "t" ["M"] with resource_type := some "test" } ∈
      (buildGraph mModelTest { defaultFilter with showTests := true } none).nodes := by
  refine ⟨?_, ?_⟩
  · exact (tests_hidden_by_default mModelTest).2.1 defaultFilter none rfl
      (normalizeNode "M" (plainModel "m" [])) (by decide)
  · exact (tests_hidden_by_default mModelTest).2.2 { defaultFilter with showTests := true } none
      (normalizeNode "T" { plainModel "t" ["M"] with resource_type := some "test" })
      rfl (by decide) rfl (by decide) rfl

/-!
## C10: resource types outside the five toggled kinds
-/

/-- C10: a node whose resource type is none of the five toggled kinds
passes the type-filter stage regardless of the toggles; only the
schema/database allow-lists and the focus reduction can exclude it. -/
theorem unknown_type_passes (n : NodeData)
    (h : n.type ∉ ([some "model", some "source", some "seed", some "test", some "snapshot"] :
      List (Option String))) :
    (∀ f : FilterSpec, passesFilter f n = passesSchemaDb f n) ∧
    (∀ f g : FilterSpec, f.selectedSchemas = g.selectedSchemas →
      f.selectedDatabases = g.selectedDatabases → passesFilter f n = passesFilter g n) ∧
    (∀ (m : Manifest) (f : FilterSpec) (focusModel : Option String),
      n ∈ (buildGraph m f focusModel).nodes ↔
        (n ∈ buildNodes m ∧ passesSchemaDb f n = true ∧
          inFocusB (buildLinks m) focusModel n.id = true)) := by
  simp only [List.mem_cons, List.not_mem_nil, or_false, not_or] at h
  obtain ⟨h1, h2, h3, h4, h5⟩ := h
  have key : ∀ f : FilterSpec, passesFilter f n = passesSchemaDb f n := by
    intro f
    unfold passesFilter passesSchemaDb
    rw [if_neg (by tauto), if_neg (by tauto), if_neg (by tauto), if_neg (by tauto),
      if_neg (by tauto)]
  refine ⟨key, ?_, ?_⟩
  · intro f g hs hd
    rw [key f, key g]
    unfold passesSchemaDb
    rw [hs, hd]
  · intro m f focusModel
    rw [mem_buildGraph_nodes, key f]

/-- C10 witness: an `exposure` node passes the filter with every toggle
off just as with the defaults, reducing to the schema/database checks. -/
theorem unknown_type_passes_witness :
    passesFilter defaultFilter exoticNode = passesSchemaDb defaultFilter exoticNode ∧
    passesFilter
      { defaultFilter with
        showModels := false, showSources := false, showSeeds := false,
        showTests := false, showSnapshots := false } exoticNode =
      passesFilter defaultFilter exoticNode := by
  have h := unknown_type_passes exoticNode (by decide)
  exact ⟨h.1 defaultFilter, h.2.1 _ _ rfl rfl⟩

/-!
## C7: malformed manifest documents
-/

/-- C7: a manifest document that is not a valid object mapping of node
records makes the node extraction throw (a `TypeError` propagating out of
`buildGraph`) instead of yielding a graph, while a well-formed mapping
parses without error. -/
theorem invalid_manifest_parse_error :
    exceptIsError (buildNodesJs JsVal.null) = true ∧
    exceptIsError
      (buildNodesJs (JsVal.object [("nodes", JsVal.object [("model.x", JsVal.null)])])) = true ∧
    exceptIsError
      (buildNodesJs (JsVal.object [("nodes", JsVal.object [("model.x", JsVal.object [])])])) =
      false :=
  ⟨rfl, rfl, rfl⟩

/-!
## C8: defaults for missing optional fields
-/

/-- C8: a node record missing its optional fields parses without error,
with tags defaulting to the empty array, description to the empty string,
materialization to `view`, and schema/database to `undefined`; and no
object record ever raises an error. -/
theorem missing_optional_fields_default (id : String) (fields : List (String × JsVal))
    (hconfig : fields.lookup "config" = none)
    (hschema : fields.lookup "schema" = none)
    (hdatabase : fields.lookup "database" = none)
    (htags : fields.lookup "tags" = none)
    (hdescription : fields.lookup "description" = none) :
    parseNodeEntry id (JsVal.object fields) =
      Except.ok
        { id := id
          name := jsLookup fields "name"
          type := jsLookup fields "resource_type"
          materialization := JsVal.string "view"
          schema := JsVal.undefined
          database := JsVal.undefined
          tags := JsVal.array []
          description := JsVal.string "" } ∧
    (∀ (id2 : String) (fields2 : List (String × JsVal)),
      exceptIsError (parseNodeEntry id2 (JsVal.object fields2)) = false) := by
  constructor
  · show Except.ok _ = _
    simp [jsLookup, hconfig, hschema, hdatabase, htags, hdescription, optChainProp, jsOr, truthy]
  · intro id2 fields2
    rfl

/-- C8 witness: a record carrying only a name parses to the defaulted
node. -/
theorem missing_optional_fields_default_witness :
    parseNodeEntry "model.m" (JsVal.object [("name", JsVal.string "m")]) =
      Except.ok
        { id := "model.m"
          name := JsVal.string "m"
          type := JsVal.undefined
          materialization := JsVal.string "view"
          schema := JsVal.undefined
          database := JsVal.undefined
          tags := JsVal.array []
          description := JsVal.string "" } ∧
    exceptIsError (parseNodeEntry "model.m" (JsVal.object [("name", JsVal.string "m")])) = false := by
  have h := missing_optional_fields_default "model.m" [("name", JsVal.string "m")]
    rfl rfl rfl rfl rfl
  exact ⟨h.1, h.2 "model.m" [("name", JsVal.string "m")]⟩

/-!
## C9: drag pinning
-/

/-- C9 counterexample: ending a drag immediately unpins the node —
`dragended` clears `fx`/`fy`, so after the drag gesture at the concrete
node `(10, 20)` the node is no longer fixed, contradicting the claim that
ending a drag does not by itself unpin the node. -/
theorem dragend_unpins_counterexample :
    isPinned (dragged 30 40 (dragstarted (SimNode.mk 10 20 none none))) = true ∧
    isPinned (dragended (dragged 30 40 (dragstarted (SimNode.mk 10 20 none none)))) = false ∧
    (dragended (dragged 30 40 (dragstarted (SimNode.mk 10 20 none none)))).fx = none ∧
    (dragended (dragged 30 40 (dragstarted (SimNode.mk 10 20 none none)))).fy = none := by
  decide

/-- C9 amended: a node is fixed from drag start (at its current position)
through drag moves (at the pointer position), and ending the drag clears
the fixed position — the pin lasts exactly for the duration of the drag
gesture. -/
theorem drag_pin_lifecycle (d : SimNode) (eventX eventY : Int) :
    (dragstarted d).fx = some d.x ∧ (dragstarted d).fy = some d.y ∧
    isPinned (dragstarted d) = true ∧
    (dragged eventX eventY d).fx = some eventX ∧
    (dragged eventX eventY d).fy = some eventY ∧
    isPinned (dragged eventX eventY d) = true ∧
    (dragended d).fx = none ∧ (dragended d).fy = none ∧
    isPinned (dragended d) = false := by
  simp [dragstarted, dragged, dragended, isPinned]

/-!
## Correctness of the focus traversals

The upstream traversal is analysed directly; the downstream traversal is
identified with the upstream traversal over the reversed edge list.
-/

/-- A fold whose step only grows the accumulator contains it. -/
theorem foldl_subset {α : Type} (g : List String → α → List String)
    (hg : ∀ acc a, acc ⊆ g acc a) :
    ∀ (ls : List α) (acc : List String), acc ⊆ ls.foldl g acc := by
  intro ls
  induction ls with
  | nil => intro acc x hx; exact hx
  | cons a ls ih =>
    intro acc
    exact List.Subset.trans (hg acc a) (ih (g acc a))

/-- A fold whose step preserves a property preserves it. -/
theorem foldl_preserve {α : Type} (P : List String → Prop)
    (g : List String → α → List String)
    (hg : ∀ acc a, P acc → P (g acc a)) :
    ∀ (ls : List α) (acc : List String), P acc → P (ls.foldl g acc) := by
  intro ls
  induction ls with
  | nil => intro acc h; exact h
  | cons a ls ih => intro acc h; exact ih (g acc a) (hg acc a h)

/-- Every member of a fold is an original member or was contributed by
one of the folded elements. -/
theorem foldl_mem_elim {α : Type} (g : List String → α → List String)
    (Q : α → String → Prop)
    (hg : ∀ acc a y, y ∈ g acc a → y ∈ acc ∨ Q a y) :
    ∀ (ls : List α) (acc : List String) (y : String),
      y ∈ ls.foldl g acc → y ∈ acc ∨ ∃ a ∈ ls, Q a y := by
  intro ls
  induction ls with
  | nil => intro acc y hy; exact Or.inl hy
  | cons a ls ih =>
    intro acc y hy
    rcases ih (g acc a) y hy with h1 | ⟨b, hb, hq⟩
    · rcases hg acc a y h1 with h2 | h2
      · exact Or.inl h2
      · exact Or.inr ⟨a, List.mem_cons_self a ls, h2⟩
    · exact Or.inr ⟨b, List.mem_cons_of_mem a hb, hq⟩

/-- Paths compose with a final edge. -/
theorem Reaches_snoc {links : List Link} {a b c : String}
    (h : Reaches links a b) (he : Link.mk b c ∈ links) : Reaches links a c := by
  induction h with
  | refl x => exact Reaches.head he (Reaches.refl c)
  | head hxy _ ih => exact Reaches.head hxy (ih he)

/-- A nonempty path starts at an edge source. -/
theorem Reaches_src_cases {links : List Link} {y x : String} (h : Reaches links y x) :
    y = x ∨ y ∈ links.map Link.source := by
  cases h with
  | refl => exact Or.inl rfl
  | head he _ => exact Or.inr (List.mem_map.mpr ⟨_, he, rfl⟩)

/-- A nonempty path ends at an edge target. -/
theorem Reaches_tgt_cases {links : List Link} {x y : String} (h : Reaches links x y) :
    y = x ∨ y ∈ links.map Link.target := by
  induction h with
  | refl => exact Or.inl rfl
  | head he _ ih =>
    rcases ih with rfl | h2
    · exact Or.inr (List.mem_map.mpr ⟨_, he, rfl⟩)
    · exact Or.inr h2

/-- The visited set only grows during the upstream traversal. -/
theorem getUpstreamAux_subset (links : List Link) :
    ∀ (fuel : Nat) (visited : List String) (nodeId : String),
      visited ⊆ getUpstreamAux links fuel visited nodeId := by
  intro fuel
  induction fuel with
  | zero => intro visited nodeId x hx; simpa [getUpstreamAux] using hx
  | succ fuel ih =>
    intro visited nodeId
    rw [getUpstreamAux]
    by_cases h : visited.contains nodeId
    · rw [if_pos h]
      exact List.Subset.refl visited
    · rw [if_neg h]
      refine List.Subset.trans (List.subset_cons_self nodeId visited) ?_
      refine foldl_subset _ ?_ links (nodeId :: visited)
      intro acc l
      by_cases hl : l.target = nodeId
      · rw [if_pos hl]; exact ih acc l.source
      · rw [if_neg hl]
        exact List.Subset.refl acc

/-- The visited-set guard keeps the visited list duplicate-free. -/
theorem getUpstreamAux_nodup (links : List Link) :
    ∀ (fuel : Nat) (visited : List String) (nodeId : String), visited.Nodup →
      (getUpstreamAux links fuel visited nodeId).Nodup := by
  intro fuel
  induction fuel with
  | zero => intro visited nodeId hv; simpa [getUpstreamAux] using hv
  | succ fuel ih =>
    intro visited nodeId hv
    rw [getUpstreamAux]
    by_cases h : visited.contains nodeId
    · rw [if_pos h]; exact hv
    · rw [if_neg h]
      refine foldl_preserve List.Nodup _ ?_ links (nodeId :: visited) ?_
      · intro acc l hacc
        by_cases hl : l.target = nodeId
        · rw [if_pos hl]; exact ih acc l.source hacc
        · rw [if_neg hl]; exact hacc
      · exact List.nodup_cons.mpr ⟨by simpa using h, hv⟩

/-- Soundness: every node the upstream traversal adds reaches the node it
was called on. -/
theorem getUpstreamAux_sound (links : List Link) :
    ∀ (fuel : Nat) (visited : List String) (nodeId y : String),
      y ∈ getUpstreamAux links fuel visited nodeId →
      y ∈ visited ∨ Reaches links y nodeId := by
  intro fuel
  induction fuel with
  | zero => intro visited nodeId y hy; exact Or.inl (by simpa [getUpstreamAux] using hy)
  | succ fuel ih =>
    intro visited nodeId y hy
    rw [getUpstreamAux] at hy
    by_cases h : visited.contains nodeId
    · rw [if_pos h] at hy; exact Or.inl hy
    · rw [if_neg h] at hy
      have key := foldl_mem_elim _
        (fun (l : Link) (z : String) => l.target = nodeId ∧ Reaches links z l.source)
        ?hg links (nodeId :: visited) y hy
      case hg =>
        intro acc l z hz
        by_cases hl : l.target = nodeId
        · rw [if_pos hl] at hz
          rcases ih acc l.source z hz with h1 | h1
          · exact Or.inl h1
          · exact Or.inr ⟨hl, h1⟩
        · rw [if_neg hl] at hz; exact Or.inl hz
      rcases key with h1 | ⟨l, hlmem, hlt, hr⟩
      · rcases List.mem_cons.mp h1 with rfl | h2
        · exact Or.inr (Reaches.refl y)
        · exact Or.inl h2
      · refine Or.inr (Reaches_snoc hr ?_)
        have hlink : Link.mk l.source nodeId = l := by
          obtain ⟨s, t⟩ := l
          simp only at hlt
          rw [hlt]
        rw [hlink]
        exact hlmem

/-- Growing the visited set cannot increase the unvisited count. -/
theorem newCount_le_of_subset (univ : List String) {vis vis' : List String}
    (h : vis ⊆ vis') : newCount univ vis' ≤ newCount univ vis := by
  apply List.Sublist.length_le
  apply List.monotone_filter_right
  intro a ha
  simp only [Bool.not_eq_true', ← Bool.not_eq_true] at ha ⊢
  intro hmem
  exact ha (by simpa using h (by simpa using hmem))

/-- Visiting a fresh element of the universe strictly decreases the
unvisited count. -/
theorem newCount_lt (univ : List String) {vis : List String} {x : String}
    (hx : x ∈ univ) (hnx : x ∉ vis) : newCount univ (x :: vis) < newCount univ vis := by
  induction univ with
  | nil => cases hx
  | cons u us ih =>
    unfold newCount
    rw [List.filter_cons, List.filter_cons]
    by_cases hu : u = x
    · subst hu
      have h1 : (!(u :: vis).contains u) = false := by simp
      have h2 : (!vis.contains u) = true := by simpa using hnx
      rw [h1, h2]
      simp only [Bool.false_eq_true, if_false, if_true, List.length_cons]
      have := newCount_le_of_subset us (List.subset_cons_self u vis)
      unfold newCount at this
      omega
    · have hx2 : x ∈ us := by
        rcases List.mem_cons.mp hx with rfl | h2
        · exact absurd rfl hu
        · exact h2
      have hrec := ih hx2
      unfold newCount at hrec
      by_cases huv : u ∈ vis
      · have h1 : (!(x :: vis).contains u) = false := by simp [huv]
        have h2 : (!vis.contains u) = false := by simp [huv]
        rw [h1, h2]
        simpa using hrec
      · have h1 : (!(x :: vis).contains u) = true := by simp [huv, hu]
        have h2 : (!vis.contains u) = true := by simp [huv]
        rw [h1, h2]
        simp only [if_true, List.length_cons]
        omega

/-- Saturation: given enough fuel (one unit per unvisited candidate), the
upstream traversal starting at a universe member returns a set that
contains the start node, contains the initial visited set, and is closed
under predecessors of its new members.  `univ` must contain every edge
source. -/
theorem getUpstreamAux_sat (links : List Link) (univ : List String)
    (hUniv : ∀ l ∈ links, l.source ∈ univ) :
    ∀ (fuel : Nat) (visited : List String) (nodeId : String),
      nodeId ∈ univ → newCount univ visited + 1 ≤ fuel →
      visited ⊆ getUpstreamAux links fuel visited nodeId ∧
      nodeId ∈ getUpstreamAux links fuel visited nodeId ∧
      (∀ z ∈ getUpstreamAux links fuel visited nodeId, z ∉ visited →
        ∀ l ∈ links, l.target = z → l.source ∈ getUpstreamAux links fuel visited nodeId) := by
  intro fuel
  induction fuel with
  | zero => intro visited nodeId _ hb; omega
  | succ fuel ih =>
    intro visited nodeId hu hb
    by_cases h : visited.contains nodeId
    · rw [getUpstreamAux, if_pos h]
      exact ⟨List.Subset.refl visited, by simpa using h,
        fun z hz hnz l hl hlt => absurd hz hnz⟩
    · have hnodeId : nodeId ∉ visited := by simpa using h
      have key : ∀ (rest : List Link), (∀ l ∈ rest, l ∈ links) →
          ∀ (acc : List String), nodeId :: visited ⊆ acc →
          newCount univ acc + 1 ≤ fuel →
          acc ⊆ rest.foldl
              (fun vis l =>
                if l.target = nodeId then getUpstreamAux links fuel vis l.source else vis) acc ∧
          (∀ z ∈ rest.foldl
              (fun vis l =>
                if l.target = nodeId then getUpstreamAux links fuel vis l.source else vis) acc,
            z ∉ acc → ∀ l ∈ links, l.target = z →
              l.source ∈ rest.foldl
                (fun vis l =>
                  if l.target = nodeId then getUpstreamAux links fuel vis l.source else vis) acc) ∧
          (∀ l ∈ rest, l.target = nodeId →
            l.source ∈ rest.foldl
              (fun vis l =>
                if l.target = nodeId then getUpstreamAux links fuel vis l.source else vis) acc) := by
        intro rest
        induction rest with
        | nil =>
          intro _ acc _ _
          exact ⟨List.Subset.refl acc, fun z hz hnz => absurd hz hnz,
            fun l hl => absurd hl (List.not_mem_nil l)⟩
        | cons l rest irest =>
          intro hsub acc hacc hfb
          simp only [List.foldl_cons]
          by_cases hl : l.target = nodeId
          · rw [if_pos hl]
            have hls : l.source ∈ univ := hUniv l (hsub l (List.mem_cons_self l rest))
            obtain ⟨hsub1, hmem1, hsat1⟩ := ih acc l.source hls hfb
            have hacc2 : nodeId :: visited ⊆ getUpstreamAux links fuel acc l.source :=
              List.Subset.trans hacc hsub1
            have hfb2 : newCount univ (getUpstreamAux links fuel acc l.source) + 1 ≤ fuel := by
              have := newCount_le_of_subset univ hsub1
              omega
            obtain ⟨hsubR, hsatR, hlastR⟩ :=
              irest (fun l2 hl2 => hsub l2 (List.mem_cons_of_mem l hl2))
                (getUpstreamAux links fuel acc l.source) hacc2 hfb2
            refine ⟨List.Subset.trans hsub1 hsubR, ?_, ?_⟩
            · intro z hz hnz l2 hl2 hlt2
              by_cases hz' : z ∈ getUpstreamAux links fuel acc l.source
              · by_cases hz'' : z ∈ acc
                · exact absurd hz'' hnz
                · exact hsubR (hsat1 z hz' hz'' l2 hl2 hlt2)
              · exact hsatR z hz hz' l2 hl2 hlt2
            · intro l2 hl2 hlt2
              rcases List.mem_cons.mp hl2 with rfl | hl2'
              · exact hsubR hmem1
              · exact hlastR l2 hl2' hlt2
          · rw [if_neg hl]
            obtain ⟨hsubR, hsatR, hlastR⟩ :=
              irest (fun l2 hl2 => hsub l2 (List.mem_cons_of_mem l hl2)) acc hacc hfb
            refine ⟨hsubR, hsatR, ?_⟩
            intro l2 hl2 hlt2
            rcases List.mem_cons.mp hl2 with rfl | hl2'
            · exact absurd hlt2 hl
            · exact hlastR l2 hl2' hlt2
      rw [getUpstreamAux, if_neg h]
      have hb0 : newCount univ (nodeId :: visited) + 1 ≤ fuel := by
        have hlt := newCount_lt univ hu hnodeId
        omega
      obtain ⟨hsubA, hsatA, hlastA⟩ := key links (fun l hl => hl) (nodeId :: visited)
        (List.Subset.refl _) hb0
      refine ⟨?_, ?_, ?_⟩
      · exact List.Subset.trans (List.subset_cons_self nodeId visited) hsubA
      · exact hsubA (List.mem_cons_self nodeId visited)
      · intro z hz hnz l hl hlt
        by_cases hz0 : z ∈ nodeId :: visited
        · rcases List.mem_cons.mp hz0 with rfl | hzv
          · exact hlastA l hl hlt
          · exact absurd hzv hnz
        · exact hsatA z hz hz0 l hl hlt

/-- A set closed under predecessors contains everything that reaches one
of its members. -/
theorem Reaches_closure {links : List Link} {R : List String}
    (hclosed : ∀ z ∈ R, ∀ l ∈ links, l.target = z → l.source ∈ R) :
    ∀ {y x : String}, Reaches links y x → x ∈ R → y ∈ R := by
  intro y x h
  induction h with
  | refl => exact fun hx => hx
  | head hxy _ ih => exact fun hx => hclosed _ (ih hx) _ hxy rfl

/-- Completeness: every node with a forward path into the focus node is
found by the upstream traversal. -/
theorem getUpstream_complete (links : List Link) (focus y : String)
    (h : Reaches links y focus) : y ∈ getUpstream links focus := by
  have hUniv : ∀ l ∈ links, l.source ∈ focus :: links.map Link.source :=
    fun l hl => List.mem_cons_of_mem _ (List.mem_map.mpr ⟨l, hl, rfl⟩)
  have hb : newCount (focus :: links.map Link.source) [] + 1 ≤ links.length + 2 := by
    have h1 : newCount (focus :: links.map Link.source) [] ≤
        (focus :: links.map Link.source).length :=
      List.length_filter_le _ _
    simp only [List.length_cons, List.length_map] at h1
    omega
  obtain ⟨-, hfocus, hsat⟩ := getUpstreamAux_sat links (focus :: links.map Link.source) hUniv
    (links.length + 2) [] focus (List.mem_cons_self _ _) hb
  exact Reaches_closure (fun z hz l hl hlt => hsat z hz (List.not_mem_nil z) l hl hlt) h hfocus

/-- With sufficient fuel on both sides, the traversal result does not
depend on the exact fuel. -/
theorem getUpstreamAux_fuel_irrel (links : List Link) (univ : List String)
    (hUniv : ∀ l ∈ links, l.source ∈ univ) :
    ∀ (fuel fuel' : Nat) (visited : List String) (nodeId : String),
      nodeId ∈ univ → newCount univ visited + 1 ≤ fuel →
      newCount univ visited + 1 ≤ fuel' →
      getUpstreamAux links fuel visited nodeId = getUpstreamAux links fuel' visited nodeId := by
  intro fuel
  induction fuel with
  | zero => intro fuel' visited nodeId _ hb _; omega
  | succ fuel ih =>
    intro fuel' visited nodeId hu hb hb'
    obtain ⟨fuel', rfl⟩ : ∃ k, fuel' = k + 1 := ⟨fuel' - 1, by omega⟩
    rw [getUpstreamAux, getUpstreamAux]
    by_cases h : visited.contains nodeId
    · rw [if_pos h, if_pos h]
    · rw [if_neg h, if_neg h]
      have hnodeId : nodeId ∉ visited := by simpa using h
      have key : ∀ (rest : List Link), (∀ l ∈ rest, l ∈ links) →
          ∀ (acc : List String), nodeId :: visited ⊆ acc →
          newCount univ acc + 1 ≤ fuel → newCount univ acc + 1 ≤ fuel' →
          rest.foldl
            (fun vis l =>
              if l.target = nodeId then getUpstreamAux links fuel vis l.source else vis) acc =
          rest.foldl
            (fun vis l =>
              if l.target = nodeId then getUpstreamAux links fuel' vis l.source else vis) acc := by
        intro rest
        induction rest with
        | nil => intro _ acc _ _ _; rfl
        | cons l rest irest =>
          intro hsub acc hacc hfb hfb'
          simp only [List.foldl_cons]
          by_cases hl : l.target = nodeId
          · rw [if_pos hl, if_pos hl]
            have hls : l.source ∈ univ := hUniv l (hsub l (List.mem_cons_self l rest))
            have hstep : getUpstreamAux links fuel acc l.source =
                getUpstreamAux links fuel' acc l.source :=
              ih fuel' acc l.source hls hfb hfb'
            rw [← hstep]
            have hgrow := getUpstreamAux_subset links fuel acc l.source
            refine irest (fun l2 hl2 => hsub l2 (List.mem_cons_of_mem l hl2))
              (getUpstreamAux links fuel acc l.source)
              (List.Subset.trans hacc hgrow) ?_ ?_
            · have := newCount_le_of_subset univ hgrow
              omega
            · have := newCount_le_of_subset univ hgrow
              omega
          · rw [if_neg hl, if_neg hl]
            exact irest (fun l2 hl2 => hsub l2 (List.mem_cons_of_mem l hl2)) acc hacc hfb hfb'
      have hb0 : newCount univ (nodeId :: visited) + 1 ≤ fuel := by
        have := newCount_lt univ hu hnodeId
        omega
      have hb0' : newCount univ (nodeId :: visited) + 1 ≤ fuel' := by
        have := newCount_lt univ hu hnodeId
        omega
      exact key links (fun l hl => hl) (nodeId :: visited) (List.Subset.refl _) hb0 hb0'

/-- Any fuel of at least `links.length + 2` computes `getUpstream`. -/
theorem getUpstreamAux_stabilizes (links : List Link) (focus : String) (fuel : Nat)
    (hf : links.length + 2 ≤ fuel) :
    getUpstreamAux links fuel [] focus = getUpstream links focus := by
  have hUniv : ∀ l ∈ links, l.source ∈ focus :: links.map Link.source :=
    fun l hl => List.mem_cons_of_mem _ (List.mem_map.mpr ⟨l, hl, rfl⟩)
  have hb : newCount (focus :: links.map Link.source) [] + 1 ≤ links.length + 2 := by
    have h1 : newCount (focus :: links.map Link.source) [] ≤
        (focus :: links.map Link.source).length :=
      List.length_filter_le _ _
    simp only [List.length_cons, List.length_map] at h1
    omega
  exact getUpstreamAux_fuel_irrel links (focus :: links.map Link.source) hUniv fuel
    (links.length + 2) [] focus (List.mem_cons_self _ _) (by omega) hb

/-- The downstream traversal is the upstream traversal over the reversed
edge list. -/
theorem getDownstreamAux_eq_flip (links : List Link) :
    ∀ (fuel : Nat) (visited : List String) (nodeId : String),
      getDownstreamAux links fuel visited nodeId =
        getUpstreamAux (links.map flipLink) fuel visited nodeId := by
  intro fuel
  induction fuel with
  | zero => intro visited nodeId; rfl
  | succ fuel ih =>
    intro visited nodeId
    rw [getDownstreamAux, getUpstreamAux]
    by_cases h : visited.contains nodeId
    · rw [if_pos h, if_pos h]
    · rw [if_neg h, if_neg h]
      rw [List.foldl_map]
      have hstep : (fun (vis : List String) (l : Link) =>
          if l.source = nodeId then getDownstreamAux links fuel vis l.target else vis) =
          (fun (vis : List String) (l : Link) =>
            if (flipLink l).target = nodeId then
              getUpstreamAux (links.map flipLink) fuel vis (flipLink l).source
            else vis) := by
        funext vis l
        simp only [flipLink]
        by_cases hl : l.source = nodeId
        · rw [if_pos hl, if_pos hl]
          exact ih vis l.target
        · rw [if_neg hl, if_neg hl]
      rw [hstep]

/-- `getDownstream` as an upstream traversal of the reversed edges. -/
theorem getDownstream_eq_flip (links : List Link) (focus : String) :
    getDownstream links focus = getUpstream (links.map flipLink) focus := by
  unfold getDownstream getUpstream
  rw [getDownstreamAux_eq_flip, List.length_map]

/-- Reachability over the reversed edges is reversed reachability. -/
theorem reaches_flip_iff (links : List Link) (a b : String) :
    Reaches (links.map flipLink) a b ↔ Reaches links b a := by
  constructor
  · intro h
    induction h with
    | refl x => exact Reaches.refl x
    | head hxy _ ih =>
      obtain ⟨l, hl, he⟩ := List.mem_map.mp hxy
      obtain ⟨s, t⟩ := l
      obtain ⟨rfl, rfl⟩ := Link.mk.injEq .. ▸ he
      exact Reaches_snoc ih hl
  · intro h
    induction h with
    | refl x => exact Reaches.refl x
    | head hxy _ ih =>
      exact Reaches_snoc ih (List.mem_map.mpr ⟨_, hxy, rfl⟩)

/-- Soundness for the downstream traversal. -/
theorem getDownstream_sound (links : List Link) (focus y : String)
    (hy : y ∈ getDownstream links focus) : Reaches links focus y := by
  rw [getDownstream_eq_flip] at hy
  rcases getUpstreamAux_sound (links.map flipLink) _ [] focus y hy with h | h
  · cases h
  · exact (reaches_flip_iff links y focus).mp h

/-- Completeness for the downstream traversal. -/
theorem getDownstream_complete (links : List Link) (focus y : String)
    (h : Reaches links focus y) : y ∈ getDownstream links focus := by
  rw [getDownstream_eq_flip]
  exact getUpstream_complete (links.map flipLink) focus y
    ((reaches_flip_iff links y focus).mpr h)

/-- The focus set computed by the two traversals is exactly the union of
the reverse closure and the forward closure of the focus node. -/
theorem mem_relevantNodes (links : List Link) (focus y : String) :
    y ∈ relevantNodes links focus ↔
      Reaches links y focus ∨ Reaches links focus y := by
  unfold relevantNodes
  rw [List.mem_append]
  constructor
  · rintro (h | h)
    · rcases getUpstreamAux_sound links _ [] focus y h with h1 | h1
      · cases h1
      · exact Or.inl h1
    · exact Or.inr (getDownstream_sound links focus y h)
  · rintro (h | h)
    · exact Or.inl (getUpstream_complete links focus y h)
    · exact Or.inr (getDownstream_complete links focus y h)

/-!
## C1: focus subgraph reachability
-/

/-- C1: with an active focus node, every visible node other than the
focus node is connected to it by a directed path over the unfiltered edge
set (backward for upstream members, forward for downstream members), and
the focus set is exactly the union of the upstream closure, the
downstream closure, and the focus node itself. -/
theorem focus_subgraph_reachability (m : Manifest) (f : FilterSpec) (focus : String)
    (hfocus : focus ≠ "") :
    (∀ n ∈ (buildGraph m f (some focus)).nodes, n.id ≠ focus →
      Reaches (buildLinks m) n.id focus ∨ Reaches (buildLinks m) focus n.id) ∧
    (∀ y, y ∈ relevantNodes (buildLinks m) focus ↔
      (Reaches (buildLinks m) y focus ∨ Reaches (buildLinks m) focus y ∨ y = focus)) := by
  constructor
  · intro n hn _
    have h := ((mem_buildGraph_nodes m f (some focus) n).mp hn).2.2
    have hmem : n.id ∈ relevantNodes (buildLinks m) focus := by
      simp [inFocusB, hfocus] at h
      exact h
    exact (mem_relevantNodes (buildLinks m) focus n.id).mp hmem
  · intro y
    rw [mem_relevantNodes]
    constructor
    · rintro (h | h)
      · exact Or.inl h
      · exact Or.inr (Or.inl h)
    · rintro (h | h | rfl)
      · exact Or.inl h
      · exact Or.inr h
      · exact Or.inl (Reaches.refl y)

/-- C1 witness: focusing `B` in the chain `A → B → C`, the visible node
`C` is connected to `B`, and `A` is in the focus set iff it reaches `B`. -/
theorem focus_subgraph_reachability_witness :
    (Reaches (buildLinks mABC) (normalizeNode "C" (plainModel "c" ["B"])).id "B" ∨
      Reaches (buildLinks mABC) "B" (normalizeNode "C" (plainModel "c" ["B"])).id) ∧
    ("A" ∈ relevantNodes (buildLinks mABC) "B" ↔
      (Reaches (buildLinks mABC) "A" "B" ∨ Reaches (buildLinks mABC) "B" "A" ∨ "A" = "B")) := by
  have h := focus_subgraph_reachability mABC defaultFilter "B" (by decide)
  exact ⟨h.1 (normalizeNode "C" (plainModel "c" ["B"])) (by decide) (by decide), h.2 "A"⟩

/-!
## C2: traversal termination
-/

/-- C2: for every edge list — cyclic ones included — the focus traversals
terminate: the visited-set guard keeps the visited list duplicate-free,
every visited node is the focus node or an edge endpoint, and any fuel of
at least `links.length + 2` (one unit per possible recursive argument)
yields the same, stable result. -/
theorem traversal_termination (links : List Link) (focus : String) :
    (getUpstream links focus).Nodup ∧
    (getDownstream links focus).Nodup ∧
    (∀ y ∈ getUpstream links focus, y = focus ∨ y ∈ links.map Link.source) ∧
    (∀ y ∈ getDownstream links focus, y = focus ∨ y ∈ links.map Link.target) ∧
    (∀ fuel, links.length + 2 ≤ fuel →
      getUpstreamAux links fuel [] focus = getUpstream links focus ∧
      getDownstreamAux links fuel [] focus = getDownstream links focus) := by
  refine ⟨?_, ?_, ?_, ?_, ?_⟩
  · exact getUpstreamAux_nodup links (links.length + 2) [] focus List.nodup_nil
  · rw [getDownstream_eq_flip]
    exact getUpstreamAux_nodup (links.map flipLink) ((links.map flipLink).length + 2) [] focus
      List.nodup_nil
  · intro y hy
    rcases getUpstreamAux_sound links _ [] focus y hy with h | h
    · cases h
    · exact Reaches_src_cases h
  · intro y hy
    exact Reaches_tgt_cases (getDownstream_sound links focus y hy)
  · intro fuel hf
    refine ⟨getUpstreamAux_stabilizes links focus fuel hf, ?_⟩
    rw [getDownstreamAux_eq_flip, getDownstream_eq_flip]
    exact getUpstreamAux_stabilizes (links.map flipLink) focus fuel
      (by rw [List.length_map]; exact hf)

/-- C2 witness: on a two-edge cycle the traversals terminate with a
duplicate-free visited set, and extra fuel does not change the result. -/
theorem traversal_termination_witness :
    (getUpstream cyclicLinks "a").Nodup ∧
    ("b" = "a" ∨ "b" ∈ cyclicLinks.map Link.source) ∧
    getUpstreamAux cyclicLinks 10 [] "a" = getUpstream cyclicLinks "a" ∧
    getDownstreamAux cyclicLinks 10 [] "a" = getDownstream cyclicLinks "a" := by
  have h := traversal_termination cyclicLinks "a"
  exact ⟨h.1, h.2.2.1 "b" (by decide), (h.2.2.2.2 10 (by decide)).1,
    (h.2.2.2.2 10 (by decide)).2⟩
